import Mathlib

/-!
Verification of the monet attenuation-calibration and power-control core.

The definitions below are shallow embeddings of the Python source in
`monet/analysis.py`, `monet/control.py`, `monet/io.py` and
`monet/calibrate.py`.  Floating-point numbers of mathematical functions
are modelled by real numbers; table keys and exact engine arithmetic by
rationals or naturals; Python exceptions by `Except` error values.
-/

deriving instance DecidableEq for Except

namespace Monet

/-- Errors raised by the analyzers (`analysis.py`).  `outOfRange y lo hi`
models the `ValueError` text carrying the requested value and the bounds
printed in the message. -/
inductive AnalysisErr where
  | outOfRange (requested lo hi : ℝ)
  | notImplementedError

/-! ## Sinusoidal curve model (`SinusAttenuationCurveAnalyzer`) -/

/-- Parameters of the sinusoidal model (`bkg`, `amp`, `phi`). -/
structure SinusParams where
  bkg : ℝ
  amp : ℝ
  phi : ℝ

/-- `SinusAttenuationCurveAnalyzer._model_function`:
`bkg + amp * (1 + np.sin(4*np.pi/180*(x+phi)))/2`. -/
noncomputable def sinus_model_function (p : SinusParams) (x : ℝ) : ℝ :=
  p.bkg + p.amp * (1 + Real.sin (4 * Real.pi / 180 * (x + p.phi))) / 2

/-- The scalar folding loop at the end of
`SinusAttenuationCurveAnalyzer._model_function_inv`
(`for i in range(5): ...` adding or subtracting 90 until within
`[mini, maxi]`); the fuel argument is the remaining loop iterations. -/
noncomputable def fold_into_bounds (mini maxi : ℝ) : ℕ → ℝ → ℝ
  | 0, alpha => alpha
  | n + 1, alpha =>
    if alpha < mini then fold_into_bounds mini maxi n (alpha + 90)
    else if alpha > maxi then fold_into_bounds mini maxi n (alpha - 90)
    else alpha

/-- `SinusAttenuationCurveAnalyzer._model_function_inv`: raises when
`y < bkg` or `y > bkg + amp`, otherwise returns
`np.arcsin((y-bkg)/amp*2 - 1)/4*180/np.pi - phi` folded into bounds. -/
noncomputable def sinus_model_function_inv (p : SinusParams) (mini maxi y : ℝ) :
    Except AnalysisErr ℝ :=
  if y < p.bkg ∨ y > p.bkg + p.amp then
    .error (.outOfRange y p.bkg (p.bkg + p.amp))
  else
    .ok (fold_into_bounds mini maxi 5
      (Real.arcsin ((y - p.bkg) / p.amp * 2 - 1) / 4 * 180 / Real.pi - p.phi))

/-- `(((phi_range[0]-phi_max)//phi_period)+1)*phi_period+phi_max` with
`phi_max = 180/8`, `phi_period = 90` (Python `//` is floor division). -/
noncomputable def next_maxphi_from_min (mini : ℝ) : ℝ :=
  ((⌊(mini - 180 / 8) / 90⌋ : ℝ) + 1) * 90 + 180 / 8

/-- `(((phi_range[0]-phi_min)//phi_period)+1)*phi_period+phi_min` with
`phi_min = 3/8*180`, `phi_period = 90`. -/
noncomputable def next_minphi_from_min (mini : ℝ) : ℝ :=
  ((⌊(mini - 3 / 8 * 180) / 90⌋ : ℝ) + 1) * 90 + 3 / 8 * 180

/-- `SinusAttenuationCurveAnalyzer.output_range`: returns
`[min power, max power]` over the control range `[mini, maxi]`, using
`bkg + amp` resp. `bkg` when the fixed candidate extremum positions
`22.5 + 90k` resp. `67.5 + 90k` fall before `maxi`, and the values at the
two boundary angles otherwise. -/
noncomputable def sinus_output_range (p : SinusParams) (mini maxi : ℝ) : ℝ × ℝ :=
  (if next_minphi_from_min mini < maxi then p.bkg
   else min (sinus_model_function p mini) (sinus_model_function p maxi),
   if next_maxphi_from_min mini < maxi then p.bkg + p.amp
   else max (sinus_model_function p mini) (sinus_model_function p maxi))

/-! ## Linear curve model (`LinearCurveAnalyzer`) -/

/-- Parameters of the linear model (`bkg`, `amp`). -/
structure LinearParams where
  bkg : ℝ
  amp : ℝ

/-- `LinearCurveAnalyzer._model_function`: `bkg + amp * x`. -/
noncomputable def linear_model_function (p : LinearParams) (x : ℝ) : ℝ :=
  p.bkg + p.amp * x

/-- `LinearCurveAnalyzer._model_function_inv`: raises when `y` lies
outside `[bkg + amp*mini, bkg + amp*maxi]`, else returns `(y-bkg)/amp`. -/
noncomputable def linear_model_function_inv (p : LinearParams) (mini maxi y : ℝ) :
    Except AnalysisErr ℝ :=
  if y < p.bkg + p.amp * mini ∨ y > p.bkg + p.amp * maxi then
    .error (.outOfRange y (p.bkg + p.amp * mini) (p.bkg + p.amp * maxi))
  else
    .ok ((y - p.bkg) / p.amp)

/-- `LinearCurveAnalyzer.output_range`: `raise NotImplementedError()`. -/
def linear_output_range (p : LinearParams) (mini maxi : ℝ) :
    Except AnalysisErr (ℝ × ℝ) :=
  .error .notImplementedError

/-! ## Point curve model (`PointCurveAnalyzer`) -/

/-- `PointCurveAnalyzer.output_range`:
`[self.curr_params['amp'], self.curr_params['amp']]`. -/
def point_output_range (amp : ℝ) : Except AnalysisErr (ℝ × ℝ) :=
  .ok (amp, amp)

/-- `PointCurveAnalyzer.estimate` on a scalar: returns `0`. -/
def point_estimate (y : ℝ) : ℝ := 0

/-- `PointCurveAnalyzer.estimate_power` on a scalar: returns the
calibrated `amp` whatever the control value. -/
def point_estimate_power (amp : ℝ) (x : ℝ) : ℝ := amp

/-! ## Polynomial curve model (`PolynomAttenuationCurveAnalyzer`)

A stored float value is modelled as `Option ℝ`, with `none` standing for
NaN (the store's representation of a missing value); parameter sets are
association lists from column names to stored values. -/

/-- Evaluation of `numpy.polynomial.Polynomial(coef)` at `x`
(`coef[i]` is the degree-`i` coefficient), by Horner's rule. -/
noncomputable def polyEval (coef : List ℝ) (x : ℝ) : ℝ :=
  coef.foldr (fun c acc => c + x * acc) 0

/-- `PolynomAttenuationCurveAnalyzer._model_function` once the forward
polynomial is loaded: evaluate it. -/
noncomputable def polynom_model_function (coefFw : List ℝ) (x : ℝ) : ℝ :=
  polyEval coefFw x

/-- `PolynomAttenuationCurveAnalyzer._model_function_inv` once the
inverse polynomial is loaded: evaluate it and clamp the result into
`[mini, maxi]`. -/
noncomputable def polynom_model_function_inv (coefBw : List ℝ) (mini maxi y : ℝ) : ℝ :=
  let x := polyEval coefBw y
  if x < mini then mini else if x > maxi then maxi else x

/-- Coefficient-wise sum of two coefficient lists. -/
def addPoly : List ℝ → List ℝ → List ℝ
  | [], l => l
  | l, [] => l
  | a :: as, b :: bs => (a + b) :: addPoly as bs

/-- Coefficients of the derivative polynomial (`self.poly.deriv()`):
the derivative of `c + x * p(x)` is `p(x) + x * p'(x)`. -/
def polyDeriv : List ℝ → List ℝ
  | [] => []
  | _ :: cs => addPoly cs (0 :: polyDeriv cs)

/-- `PolynomAttenuationCurveAnalyzer.output_range`: the minimum and
maximum over the polynomial's values at the two boundary control values
and at the filtered extremum positions.  The `extremes` argument stands
for the real roots of `self.poly.deriv().roots()` that lie strictly
inside `(mini, maxi)` — a numeric root finder, which the embedding
cannot enumerate; the containment theorem assumes `extremes` lists every
real root of the derivative inside the bounds, exactly the set the
source filters. -/
noncomputable def polynom_output_range (coef : List ℝ) (mini maxi : ℝ)
    (extremes : List ℝ) : ℝ × ℝ :=
  ((polyEval coef maxi :: extremes.map (polyEval coef)).foldr min (polyEval coef mini),
   (polyEval coef maxi :: extremes.map (polyEval coef)).foldr max (polyEval coef mini))

/-- Key errors raised by dictionary lookups in `params2coef`. -/
inductive ParamsErr where
  | keyError
deriving DecidableEq

/-- A parameter name, as its list of characters (Python keys such as
`'p0'`, `'i12'`). -/
abbrev ParamKey := List Char

/-- The decimal digits of `n` as characters, as produced by
`'{:d}'.format(n)`; fuel-based like `Nat.toDigits`. -/
def natCharsCore : ℕ → ℕ → List Char → List Char
  | 0, _, acc => acc
  | fuel + 1, n, acc =>
    let d := Char.ofNat (48 + n % 10)
    if n < 10 then d :: acc else natCharsCore fuel (n / 10) (d :: acc)

/-- Decimal rendering of a natural number. -/
def natChars (n : ℕ) : List Char := natCharsCore (n + 1) n []

/-- The key `'p{:d}'.format(i)` (or with another leading character). -/
def coefKey (c : Char) (i : ℕ) : ParamKey := c :: natChars i

/-- Count of parameter keys containing the character `c`
(Python `len([1 for k in list(params.keys()) if c in k])`; note that
`in` on strings is substring membership, here character membership since
the probe is a single character). -/
def countKeysContaining (c : Char) (params : List (ParamKey × Option ℝ)) : ℕ :=
  (params.map Prod.fst).countP (fun k => k.contains c)

/-- `[params[pre + str(i)] for i in range(n)]` with the subsequent
`coef[np.isnan(coef)] = 0` replacement: a missing key raises `KeyError`,
a NaN value becomes `0`. -/
def collectCoefs (params : List (ParamKey × Option ℝ)) (c : Char) (n : ℕ) :
    Except ParamsErr (List ℝ) :=
  (List.range n).mapM (fun i =>
    match params.lookup (coefKey c i) with
    | some v => .ok (v.getD 0)
    | none => .error .keyError)

/-- `PolynomAttenuationCurveAnalyzer.params2coef`: split a stored
parameter set into forward (`p0..`) and backward (`i0..`) coefficient
arrays, replacing NaN entries by `0`. -/
def params2coef (params : List (ParamKey × Option ℝ)) :
    Except ParamsErr (List ℝ × List ℝ) := do
  let nFw := countKeysContaining 'p' params
  let nBw := countKeysContaining 'i' params
  let coefFw ← collectCoefs params 'p' nFw
  let coefBw ← collectCoefs params 'i' nBw
  return (coefFw, coefBw)

/-- `PolynomAttenuationCurveAnalyzer.load_model`: set the forward and
inverse polynomials from a stored parameter set. -/
def polynom_load_model (params : List (ParamKey × Option ℝ)) :
    Except ParamsErr (List ℝ × List ℝ) :=
  params2coef params

/-! ## Power-control engine (`IlluminationLaserControl`, `control.py`)

Powers are exact rationals.  One `PowerBucketRange` models one row of
the `_power_ranges` DataFrame: it is indexed by the laser power setting
and holds the sorted achievable output range of that bucket's model. -/

/-- One row of `self._power_ranges`. -/
structure PowerBucketRange where
  laserPower : ℚ
  lo : ℚ
  hi : ℚ
deriving DecidableEq, Repr

/-- The engine state used by the `power` setter: the calibration flag,
the bucket table and the active laser power setting. -/
structure EngineState where
  isCalibrated : Bool
  powerRanges : List PowerBucketRange
  currLaserPower : ℚ
deriving DecidableEq, Repr

/-- Errors raised by `IlluminationLaserControl.power.setter`. -/
inductive EngineErr where
  | notCalibrated
  | keyError
  | attributeError
deriving DecidableEq, Repr

/-- `self._power_ranges.loc[lp, :]` lookup. -/
def findRange (st : EngineState) (lp : ℚ) : Option PowerBucketRange :=
  st.powerRanges.find? (fun b => b.laserPower == lp)

/-- `IlluminationLaserControl.power.setter` as written in the source
(`control.py` lines 295-380).  When the requested power lies outside the
active bucket's range, line 317 evaluates `self.power_ranges` — an
attribute that is never defined anywhere in the class or its base
(only `self._power_ranges` exists) — so Python raises `AttributeError`
before any bucket search happens. -/
def set_power (st : EngineState) (pwr : ℚ) : Except EngineErr (ℚ × ℚ) :=
  if st.isCalibrated = false then .error .notCalibrated
  else
    match findRange st st.currLaserPower with
    | none => .error .keyError
    | some cur =>
      if pwr < cur.lo ∨ pwr > cur.hi then
        .error .attributeError
      else
        .ok (st.currLaserPower, pwr)

/-- `IlluminationLaserControl.power.setter` with the single undefined
attribute read on line 317 (`self.power_ranges`) replaced by
`self._power_ranges`, the evident intent: search buckets whose
`max * 0.95 > pwr`, take the minimum laser power among them, fall back
to the maximum laser power over all buckets, clamp the requested power
into the chosen bucket's range, and return the chosen laser power
together with the (possibly clamped) power passed on to the attenuator. -/
def set_power_patched (st : EngineState) (pwr : ℚ) : Except EngineErr (ℚ × ℚ) :=
  if st.isCalibrated = false then .error .notCalibrated
  else
    match findRange st st.currLaserPower with
    | none => .error .keyError
    | some cur =>
      if pwr < cur.lo ∨ pwr > cur.hi then
        let qual := st.powerRanges.filter (fun b => b.hi * (95 / 100) > pwr)
        let best : Option ℚ :=
          if qual.isEmpty then (st.powerRanges.map (·.laserPower)).max?
          else (qual.map (·.laserPower)).min?
        match best with
        | none => .error .keyError
        | some lp =>
          match findRange st lp with
          | none => .error .keyError
          | some chosen =>
            let newpwr :=
              if chosen.lo > pwr then chosen.lo
              else if chosen.hi < pwr then chosen.hi
              else pwr
            .ok (lp, newpwr)
      else
        .ok (st.currLaserPower, pwr)

/-! ## 1D calibration sweep (`CalibrationProtocol1D.calibrate`) -/

/-- `np.arange(start, stop, step)` for a positive `step`, in exact
arithmetic: `ceil((stop-start)/step)` values `start + k*step`. -/
def np_arange (start stop step : ℚ) : List ℚ :=
  (List.range (⌈(stop - start) / step⌉).toNat).map
    (fun k : ℕ => start + (k : ℚ) * step)

/-- The control values swept by `CalibrationProtocol1D.calibrate`:
`np.arange(minval, maxval + step, step)`. -/
def calibrate_controlvals (minval maxval step : ℚ) : List ℚ :=
  np_arange minval (maxval + step) step

/-- The `(control value, measured power)` pairs recorded by the sweep:
one power-meter reading per control value, in order. -/
def calibrate_pairs (minval maxval step : ℚ) (read : ℕ → ℚ) : List (ℚ × ℚ) :=
  (calibrate_controlvals minval maxval step).enum.map (fun ic => (ic.2, read ic.1))

/-! ## Calibration store (`io.py`)

One table row carries the five index levels
`DEVICE_TAG, LASER_TAG, POWER_TAG, 'date', 'time'` in that order, plus
the row's parameter payload.  Index values and the payload are modelled
by naturals; dates `YYYY-MM-DD` and times `HH:MM` compare as strings
exactly as the corresponding naturals do. -/

/-- One row of the persisted calibration table. -/
structure DbRow where
  device : ℕ
  wavelength : ℕ
  laserPower : ℕ
  date : ℕ
  time : ℕ
  payload : ℕ
deriving DecidableEq, Repr

/-- A query index: `none` is the wildcard `slice(None)` used for every
level not given by the caller. -/
structure DbIndex where
  device : Option ℕ := none
  wavelength : Option ℕ := none
  laserPower : Option ℕ := none
  date : Option ℕ := none
  time : Option ℕ := none
deriving DecidableEq, Repr

/-- Whether a row is selected by `db.loc[indexvals, :]`. -/
def matchesIndex (idx : DbIndex) (r : DbRow) : Bool :=
  idx.device.all (· == r.device) && idx.wavelength.all (· == r.wavelength) &&
  idx.laserPower.all (· == r.laserPower) && idx.date.all (· == r.date) &&
  idx.time.all (· == r.time)

/-- The full five-level index of a row, in the fixed level order of
`DATABASE_INDEXLEVELS`. -/
def keyList (r : DbRow) : List ℕ :=
  [r.device, r.wavelength, r.laserPower, r.date, r.time]

/-- Lexicographic comparison of index tuples, the order used by
`DataFrame.sort_index()`. -/
def lexLe : List ℕ → List ℕ → Bool
  | [], _ => true
  | _ :: _, [] => false
  | a :: as, b :: bs => a < b || (a == b && lexLe as bs)

/-- Chronological order on rows: earlier date, or same date and earlier
time. -/
def chronoLt (r s : DbRow) : Prop :=
  r.date < s.date ∨ (r.date = s.date ∧ r.time < s.time)

/-- The non-time part of a row's key (`device`, `wavelength`,
`laser_power`): the grouping key of the `'last combinations'` branch. -/
def nonTimeKey (r : DbRow) : ℕ × ℕ × ℕ :=
  (r.device, r.wavelength, r.laserPower)

/-- Stable insertion into a `lexLe`-sorted list, keeping existing rows
with an equal key in front of the inserted one. -/
def insertSorted (r : DbRow) : List DbRow → List DbRow
  | [] => [r]
  | s :: rest =>
    if lexLe (keyList r) (keyList s) then r :: s :: rest
    else s :: insertSorted r rest

/-- `db.sort_index()`: stable sort of the rows by the full index. -/
def sortRows : List DbRow → List DbRow
  | [] => []
  | r :: rest => insertSorted r (sortRows rest)

/-- The `'last combinations'` reduction: `db.groupby` on the non-time
key levels, dropping every row of a group except its last one (in table
order).  pandas drops by index label; for tables whose full five-level
keys are pairwise distinct — the situation of the claims, guaranteed by
distinct timestamps — this keeps exactly each group's last row. -/
def lastCombinations : List DbRow → List DbRow
  | [] => []
  | r :: rest =>
    if rest.any (fun s => nonTimeKey s == nonTimeKey r) then lastCombinations rest
    else r :: lastCombinations rest

/-- The time selectors accepted by `load_database`. -/
inductive TimeSelector where
  | latest
  | lastDate
  | lastCombinations
  | all
deriving DecidableEq, Repr

/-- Errors raised by `load_database`. -/
inductive IoErr where
  | keyError
  | fileNotFoundError
  | valueError
deriving DecidableEq, Repr

/-- `load_database` on an already-read table: select by the (possibly
wildcard) index — `db.loc` raises `KeyError` when that selects nothing —
then apply the time selector.  The `'latest'` branch is
`db.sort_index().iloc[-1, :]`, a single row. -/
def load_database (db : List DbRow) (idx : DbIndex) (sel : TimeSelector) :
    Except IoErr (List DbRow) :=
  let filtered := db.filter (matchesIndex idx)
  if filtered.isEmpty then .error .keyError
  else
    match sel with
    | .latest =>
      match (sortRows filtered).getLast? with
      | some r => .ok [r]
      | none => .error .keyError
    | .lastDate =>
      let lastDate := (filtered.map (·.date)).foldl Nat.max 0
      .ok (filtered.filter (fun r => r.date == lastDate))
    | .lastCombinations => .ok (lastCombinations filtered)
    | .all => .ok filtered

/-- `save_calibration` restricted to the table contents: stamp the
current date and time onto the key and write the row — creating a
one-row table when the file does not exist (`db = none`), otherwise
overwriting the row with that exact key if present and appending it at
the end of the table if not (`db.loc[indexvals, k] = v`). -/
def save_calibration (db : Option (List DbRow)) (r : DbRow) : List DbRow :=
  match db with
  | none => [r]
  | some rows =>
    if rows.any (fun s => keyList s == keyList r) then
      rows.map (fun s => if keyList s == keyList r then { s with payload := r.payload } else s)
    else
      rows ++ [r]

/-! ## `restart_database` and its view of the filesystem (`io.py`)

Paths are lists of components, each component a list of characters; a
path string `"a/b/c.x"` is `[a, b, c.x]`.  The filesystem holds a set of
files (paths with table contents) and a set of existing directories. -/

/-- A filesystem path, as its list of components. -/
abbrev FsPath := List (List Char)

/-- The filesystem state seen by `restart_database`. -/
structure FileSys where
  files : List (FsPath × List DbRow)
  dirs : List FsPath
deriving Repr

/-- `os.path.splitext` on a single path component: split off the last
extension, keeping a leading dot with the base name. -/
def splitext (s : List Char) : List Char × List Char :=
  match s.reverse.span (fun c => c ≠ '.') with
  | (_, []) => (s, [])
  | (extRev, _dot :: baseRev) =>
    if baseRev.isEmpty then (s, [])
    else (baseRev.reverse, '.' :: extRev.reverse)

/-- The directory part of a path. -/
def parentDir (p : FsPath) : FsPath := p.dropLast

/-- Contents of a file, when it exists. -/
def fsLookup (fs : FileSys) (p : FsPath) : Option (List DbRow) :=
  fs.files.lookup p

/-- `os.path.exists`. -/
def pathExists (fs : FileSys) (p : FsPath) : Bool :=
  fs.files.any (fun q => q.1 == p) || fs.dirs.contains p

/-- Write a table to a file path, overwriting an existing file
(`DataFrame.to_excel`); requires the parent directory to exist. -/
def fsWrite (fs : FileSys) (p : FsPath) (t : List DbRow) : Except IoErr FileSys :=
  if fs.dirs.contains (parentDir p) then
    .ok { fs with files := (p, t) :: fs.files.filter (fun q => q.1 ≠ p) }
  else .error .fileNotFoundError

/-- `shutil.copy2(src, dst)`: fails with `FileNotFoundError` when the
source file or the destination's parent directory does not exist. -/
def copy2 (fs : FileSys) (src dst : FsPath) : Except IoErr FileSys :=
  match fsLookup fs src with
  | none => .error .fileNotFoundError
  | some content => fsWrite fs dst content

/-- `restart_database(db_fname)`: compute the backup name as
`os.path.join(root + '_' + today, ext)` — note the `join`, which makes
`ext` a separate path component below a directory named
`root + '_' + today` — refuse to proceed when that path exists, copy the
live file there, then overwrite the live file with its
`'last combinations'` projection. -/
def restart_database (fs : FileSys) (dbPath : FsPath) (today : List Char) :
    Except IoErr FileSys := do
  match dbPath.getLast? with
  | none => .error .fileNotFoundError
  | some fname =>
    let re := splitext fname
    let bkup : FsPath := parentDir dbPath ++ [re.1 ++ '_' :: today, re.2]
    if pathExists fs bkup then .error .valueError
    else do
      let fs1 ← copy2 fs dbPath bkup
      match fsLookup fs1 dbPath with
      | none => .error .fileNotFoundError
      | some table =>
        match load_database table {} .lastCombinations with
        | .error e => .error e
        | .ok lastEntries => fsWrite fs1 dbPath lastEntries

/-! ## Concrete instances used by individual claims -/

/-- The bucket table of the spec's bucket-selection example:
ranges `[0,40]` at laser power `100` (active), `[10,90]` at `200`,
`[50,150]` at `500`. -/
def c1State : EngineState :=
  ⟨true, [⟨100, 0, 40⟩, ⟨200, 10, 90⟩, ⟨500, 50, 150⟩], 100⟩

/-- A calibration row used in concrete store examples. -/
def rowA : DbRow := ⟨1, 488, 100, 20220102, 1000, 11⟩

/-- A second row with a different non-time key but an older date. -/
def rowB : DbRow := ⟨1, 561, 50, 20220101, 900, 22⟩

/-- A third row: same non-time key as `rowA`, newer timestamp. -/
def rowC : DbRow := ⟨1, 488, 100, 20220103, 1200, 33⟩

/-- The live database file of the `restart_database` example. -/
def c9DbPath : FsPath := ["power_database.xlsx".toList]

/-- A filesystem holding only the live database file in the current
(root) directory. -/
def c9Fs : FileSys := ⟨[(c9DbPath, [rowA, rowC])], [[]]⟩

/-- A polynomial parameter set with NaN entries, of the store's
union-of-columns shape. -/
def c10Params : List (ParamKey × Option ℝ) :=
  [("p0".toList, some 2), ("p1".toList, none), ("i0".toList, none)]

/-- NaN entries of a parameter set replaced by literal zeros. -/
def zeroNaN (params : List (ParamKey × Option ℝ)) : List (ParamKey × Option ℝ) :=
  params.map (fun kv => (kv.1, some (kv.2.getD 0)))

/-! # Theorems -/

/-- C1: the claim says that when the requested power lies outside the
active bucket's range, `set_power` searches all buckets by the
`max * 0.95` criterion and selects one; on the spec's example buckets
(`[0,40]@100` active, `[10,90]@200`, `[50,150]@500`) requesting `70`
must select bucket `200` and requesting `1000` must select `500` and
clamp to `150`.  The code instead raises `AttributeError` on every such
request: line 317 of `control.py` reads `self.power_ranges`, an
attribute that does not exist (only `self._power_ranges` does).  With
that one attribute read repaired, the selection and clamping behave
exactly as the claim states. -/
theorem set_power_bucket_selection_c1 :
    set_power c1State 70 = .error .attributeError ∧
    set_power c1State 1000 = .error .attributeError ∧
    set_power_patched c1State 70 = .ok (200, 70) ∧
    set_power_patched c1State 1000 = .ok (500, 150) := by
  have h12 : ((100:ℚ) == 200) = false := beq_eq_false_iff_ne.mpr (by norm_num)
  have h15 : ((100:ℚ) == 500) = false := beq_eq_false_iff_ne.mpr (by norm_num)
  have h25 : ((200:ℚ) == 500) = false := beq_eq_false_iff_ne.mpr (by norm_num)
  refine ⟨rfl, rfl, ?_, ?_⟩
  · norm_num [set_power_patched, findRange, c1State, List.find?, List.filter,
      List.min?, h12]
  · norm_num [set_power_patched, findRange, c1State, List.find?, List.filter,
      List.max?, List.foldl, h15, h25]

/-- C9: the claim says `restart(file)` copies the live table to a dated
backup file and only fails when that backup already exists.  The code
computes the backup name as `os.path.join(root + '_' + today, ext)`:
`ext` becomes a separate path component below a directory named
`root + '_' + today`, a directory that does not exist, so
`shutil.copy2` raises `FileNotFoundError` on every run and no backup is
ever created. -/
theorem restart_backup_path_c9 :
    restart_database c9Fs c9DbPath "2022-01-01".toList = .error .fileNotFoundError ∧
    (parentDir c9DbPath ++
        [(splitext ("power_database.xlsx".toList)).1 ++ '_' :: "2022-01-01".toList,
         (splitext ("power_database.xlsx".toList)).2] : FsPath) =
      ["power_database_2022-01-01".toList, ".xlsx".toList] ∧
    (["power_database_2022-01-01".toList, ".xlsx".toList] : FsPath) ≠
      ["power_database_2022-01-01.xlsx".toList] := by
  refine ⟨rfl, by decide, by decide⟩

/-- C8 counterexample: with `min = 0`, `max = 10`, `step = 3` — a
configuration with `min < max` and `step > 0` — the sweep is
`[0, 3, 6, 9, 12]`: it does not include `max = 10` and its last value
`12` lies outside `[min, max]`, contradicting the claim that the swept
values all lie within `[min, max]` and include `max` for every such
configuration. -/
theorem sweep_overshoots_c8_cex :
    calibrate_controlvals 0 10 3 = [0, 3, 6, 9, 12] ∧
    (10:ℚ) ∉ calibrate_controlvals 0 10 3 ∧
    ¬ (∀ v ∈ calibrate_controlvals 0 10 3, v ≤ 10) := by
  have hc : (⌈((10:ℚ) + 3 - 0) / 3⌉ : ℤ) = 5 := by
    rw [Int.ceil_eq_iff]
    norm_num
  have hlist : calibrate_controlvals 0 10 3 = [0, 3, 6, 9, 12] := by
    rw [calibrate_controlvals, np_arange, hc]
    norm_num [List.range_succ, show Int.toNat 5 = 5 from rfl]
  refine ⟨hlist, ?_, ?_⟩
  · rw [hlist]; norm_num
  · rw [hlist]; intro h
    have := h 12 (by norm_num)
    norm_num at this

/-- C8 amended: when `step > 0` exactly divides `max - min` (that is,
`max = min + q*step` for some `q ≥ 1`, as in every configuration shipped
with the repository), the swept control values are exactly
`min, min+step, ..., min+q*step`; they all lie within `[min, max]`,
include `max`, and one `(control value, measured power)` pair is
recorded per step.  Otherwise the sweep overshoots `max` (see the
counterexample). -/
theorem sweep_exact_when_step_divides_c8 (minval step : ℚ) (q : ℕ)
    (hq : 1 ≤ q) (hstep : 0 < step) :
    calibrate_controlvals minval (minval + q * step) step =
      (List.range (q + 1)).map (fun k : ℕ => minval + (k : ℚ) * step) ∧
    minval + q * step ∈ calibrate_controlvals minval (minval + q * step) step ∧
    (∀ v ∈ calibrate_controlvals minval (minval + q * step) step,
      minval ≤ v ∧ v ≤ minval + q * step) ∧
    ∀ rd : ℕ → ℚ, (calibrate_pairs minval (minval + q * step) step rd).length = q + 1 := by
  have hstep' : step ≠ 0 := ne_of_gt hstep
  have harg : (minval + q * step + step - minval) / step = ((q + 1 : ℕ) : ℚ) := by
    field_simp
    ring
  have hn : (⌈(minval + q * step + step - minval) / step⌉ : ℤ).toNat = q + 1 := by
    rw [harg, Int.ceil_natCast, Int.toNat_natCast]
  have hlist : calibrate_controlvals minval (minval + q * step) step =
      (List.range (q + 1)).map (fun k : ℕ => minval + (k : ℚ) * step) := by
    rw [calibrate_controlvals, np_arange, hn]
  refine ⟨hlist, ?_, ?_, ?_⟩
  · rw [hlist]
    simp only [List.mem_map, List.mem_range]
    exact ⟨q, by omega, rfl⟩
  · rw [hlist]
    intro v hv
    simp only [List.mem_map, List.mem_range] at hv
    obtain ⟨k, hk, rfl⟩ := hv
    have hk0 : (0:ℚ) ≤ (k : ℚ) := Nat.cast_nonneg k
    have hkq : (k : ℚ) ≤ (q : ℚ) := by
      exact_mod_cast Nat.lt_succ_iff.mp hk
    constructor
    · nlinarith
    · nlinarith
  · intro rd
    simp [calibrate_pairs, hlist]

/-- C8 witness: the divisible-step theorem instantiated at
`min = 0`, `max = 10`, `step = 5` (`q = 2`). -/
theorem sweep_exact_when_step_divides_c8_wit :
    1 ≤ 2 ∧ (0:ℚ) < 5 ∧
    (calibrate_controlvals 0 (0 + (2:ℕ) * 5) 5 =
        (List.range (2 + 1)).map (fun k : ℕ => 0 + (k : ℚ) * 5) ∧
      (0:ℚ) + (2:ℕ) * 5 ∈ calibrate_controlvals 0 (0 + (2:ℕ) * 5) 5 ∧
      (∀ v ∈ calibrate_controlvals 0 (0 + (2:ℕ) * 5) 5, (0:ℚ) ≤ v ∧ v ≤ 0 + (2:ℕ) * 5) ∧
      ∀ rd : ℕ → ℚ, (calibrate_pairs 0 (0 + (2:ℕ) * 5) 5 rd).length = 2 + 1) :=
  ⟨by norm_num, by norm_num,
    sweep_exact_when_step_divides_c8 0 5 2 (by norm_num) (by norm_num)⟩

/-- Association-list lookup into a parameter set with NaN entries
replaced by zeros. -/
theorem lookup_zeroNaN (params : List (ParamKey × Option ℝ)) (k : ParamKey) :
    (zeroNaN params).lookup k = (params.lookup k).map (fun v => some (v.getD 0)) := by
  induction params with
  | nil => rfl
  | cons a t ih =>
    cases hb : k == a.1 <;> simp [zeroNaN, List.lookup, hb] <;>
      simpa [zeroNaN] using ih

/-- Zeroing NaN entries does not change the parameter keys, hence not
the coefficient counts. -/
theorem countKeys_zeroNaN (c : Char) (params : List (ParamKey × Option ℝ)) :
    countKeysContaining c (zeroNaN params) = countKeysContaining c params := by
  simp only [countKeysContaining, zeroNaN, List.map_map]
  rfl

/-- A key present among an association list's keys can be looked up. -/
theorem lookup_mem_keys {α β : Type} [BEq α] [LawfulBEq α] (l : List (α × β)) (k : α)
    (h : k ∈ l.map Prod.fst) : ∃ v, l.lookup k = some v := by
  induction l with
  | nil => simp at h
  | cons a t ih =>
    simp at h
    rcases h with h | h
    · exact ⟨a.2, by simp [List.lookup, h]⟩
    · cases hb : k == a.1
      · obtain ⟨v, hv⟩ := ih (by simpa using h)
        exact ⟨v, by simp [List.lookup, hb, hv]⟩
      · exact ⟨a.2, by simp [List.lookup, hb]⟩

/-- `mapM` into `Except` succeeds when every element does. -/
theorem mapM_ok_of_forall {α β ε : Type} (f : α → Except ε β) (l : List α)
    (h : ∀ a ∈ l, ∃ b, f a = .ok b) : ∃ bs, l.mapM f = .ok bs := by
  induction l with
  | nil => exact ⟨[], rfl⟩
  | cons a t ih =>
    obtain ⟨b, hb⟩ := h a (by simp)
    obtain ⟨bs, hbs⟩ := ih (fun x hx => h x (by simp [hx]))
    exact ⟨b :: bs, by rw [List.mapM_cons, hb, hbs]; rfl⟩

/-- `mapM` into `Except` is pointwise-congruent. -/
theorem mapM_congr {α β ε : Type} (f g : α → Except ε β) (l : List α)
    (h : ∀ a ∈ l, f a = g a) : l.mapM f = l.mapM g := by
  induction l with
  | nil => rfl
  | cons a t ih =>
    rw [List.mapM_cons, List.mapM_cons, h a (by simp),
      ih (fun x hx => h x (by simp [hx]))]

/-- Collecting coefficients ignores the difference between a NaN entry
and a literal zero. -/
theorem collectCoefs_zeroNaN (params : List (ParamKey × Option ℝ)) (c : Char) (n : ℕ) :
    collectCoefs (zeroNaN params) c n = collectCoefs params c n := by
  unfold collectCoefs
  apply mapM_congr
  intro i _
  rw [lookup_zeroNaN]
  cases params.lookup (coefKey c i) <;> simp

/-- C10: `params2coef` (hence `load_model`) replaces every NaN-valued
coefficient (`p_i` or `i_i`) by `0`: on any parameter set of the store's
union-of-columns shape — each key `p0..p(n-1)` and `i0..i(m-1)` counted
by the substring test is present, possibly with a NaN value — loading
succeeds, and it returns exactly what loading the same parameter set
with NaN entries replaced by literal zeros returns, so `evaluate` and
`invert` coincide with the polynomials whose NaN coefficients are `0`. -/
theorem polynom_load_nan_zeroed_c10 (params : List (ParamKey × Option ℝ))
    (hp : ∀ i < countKeysContaining 'p' params, coefKey 'p' i ∈ params.map Prod.fst)
    (hqi : ∀ i < countKeysContaining 'i' params, coefKey 'i' i ∈ params.map Prod.fst) :
    (∃ fw bw, polynom_load_model params = .ok (fw, bw)) ∧
    polynom_load_model (zeroNaN params) = polynom_load_model params := by
  obtain ⟨fw, hfw⟩ : ∃ fw, collectCoefs params 'p' (countKeysContaining 'p' params) = .ok fw := by
    unfold collectCoefs
    apply mapM_ok_of_forall
    intro i hmem
    simp only [List.mem_range] at hmem
    obtain ⟨v, hv⟩ := lookup_mem_keys _ _ (hp i hmem)
    exact ⟨v.getD 0, by rw [hv]⟩
  obtain ⟨bw, hbw⟩ : ∃ bw, collectCoefs params 'i' (countKeysContaining 'i' params) = .ok bw := by
    unfold collectCoefs
    apply mapM_ok_of_forall
    intro i hmem
    simp only [List.mem_range] at hmem
    obtain ⟨v, hv⟩ := lookup_mem_keys _ _ (hqi i hmem)
    exact ⟨v.getD 0, by rw [hv]⟩
  constructor
  · refine ⟨fw, bw, ?_⟩
    simp only [polynom_load_model, params2coef, hfw, hbw]
    rfl
  · rw [polynom_load_model, polynom_load_model, params2coef, params2coef,
      countKeys_zeroNaN, countKeys_zeroNaN, collectCoefs_zeroNaN, collectCoefs_zeroNaN]

/-- C10 witness: the NaN-zeroing theorem instantiated on the concrete
parameter set `p0 = 2`, `p1 = NaN`, `i0 = NaN`. -/
theorem polynom_load_nan_zeroed_c10_wit :
    (∀ i < countKeysContaining 'p' c10Params, coefKey 'p' i ∈ c10Params.map Prod.fst) ∧
    (∀ i < countKeysContaining 'i' c10Params, coefKey 'i' i ∈ c10Params.map Prod.fst) ∧
    ((∃ fw bw, polynom_load_model c10Params = .ok (fw, bw)) ∧
      polynom_load_model (zeroNaN c10Params) = polynom_load_model c10Params) :=
  ⟨by decide, by decide, polynom_load_nan_zeroed_c10 _ (by decide) (by decide)⟩

/-- `lexLe` is reflexive. -/
theorem lexLe_refl (xs : List ℕ) : lexLe xs xs = true := by
  induction xs with
  | nil => rfl
  | cons a t ih => simp [lexLe, ih]

/-- `lexLe` is total. -/
theorem lexLe_total (xs ys : List ℕ) : lexLe xs ys = true ∨ lexLe ys xs = true := by
  induction xs generalizing ys with
  | nil => left; rfl
  | cons a t ih =>
    cases ys with
    | nil => right; rfl
    | cons b u =>
      simp only [lexLe, Bool.or_eq_true, Bool.and_eq_true, beq_iff_eq,
        decide_eq_true_eq]
      rcases Nat.lt_trichotomy a b with h | h | h
      · left; left; exact h
      · rcases ih u with h2 | h2
        · left; right; exact ⟨h, h2⟩
        · right; right; exact ⟨h.symm, h2⟩
      · right; left; exact h

/-- `lexLe` is transitive. -/
theorem lexLe_trans (xs ys zs : List ℕ) (h1 : lexLe xs ys = true)
    (h2 : lexLe ys zs = true) : lexLe xs zs = true := by
  induction xs generalizing ys zs with
  | nil => rfl
  | cons a t ih =>
    cases ys with
    | nil => simp [lexLe] at h1
    | cons b u =>
      cases zs with
      | nil => simp [lexLe] at h2
      | cons c v =>
        simp only [lexLe, Bool.or_eq_true, Bool.and_eq_true, beq_iff_eq,
          decide_eq_true_eq] at h1 h2 ⊢
        rcases h1 with h1 | ⟨rfl, h1⟩
        · rcases h2 with h2 | ⟨rfl, h2⟩
          · left; omega
          · left; exact h1
        · rcases h2 with h2 | ⟨rfl, h2⟩
          · left; exact h2
          · right; exact ⟨rfl, ih u v h1 h2⟩

/-- Membership in an insertion. -/
theorem mem_insertSorted (r x : DbRow) (l : List DbRow) :
    x ∈ insertSorted r l ↔ x = r ∨ x ∈ l := by
  induction l with
  | nil => simp [insertSorted]
  | cons s rest ih =>
    by_cases h : lexLe (keyList r) (keyList s) = true
    · simp [insertSorted, h]
    · simp only [insertSorted, if_neg h, List.mem_cons, ih]
      tauto

/-- Insertion preserves sortedness. -/
theorem sorted_insertSorted (r : DbRow) (l : List DbRow)
    (h : l.Pairwise (fun a b => lexLe (keyList a) (keyList b) = true)) :
    (insertSorted r l).Pairwise (fun a b => lexLe (keyList a) (keyList b) = true) := by
  induction l with
  | nil => simp [insertSorted]
  | cons s rest ih =>
    rcases List.pairwise_cons.mp h with ⟨hs, hrest⟩
    by_cases hc : lexLe (keyList r) (keyList s) = true
    · rw [insertSorted, if_pos hc]
      refine List.pairwise_cons.mpr ⟨?_, h⟩
      intro y hy
      rcases List.mem_cons.mp hy with rfl | hy'
      · exact hc
      · exact lexLe_trans _ _ _ hc (hs y hy')
    · rw [insertSorted, if_neg hc]
      refine List.pairwise_cons.mpr ⟨?_, ih hrest⟩
      intro y hy
      rcases (mem_insertSorted r y rest).mp hy with rfl | hy'
      · rcases lexLe_total (keyList y) (keyList s) with h2 | h2
        · exact absurd h2 hc
        · exact h2
      · exact hs y hy'

/-- `sortRows` preserves membership. -/
theorem mem_sortRows (x : DbRow) (l : List DbRow) : x ∈ sortRows l ↔ x ∈ l := by
  induction l with
  | nil => simp [sortRows]
  | cons r rest ih => simp [sortRows, mem_insertSorted, ih]

/-- `sortRows` sorts. -/
theorem sorted_sortRows (l : List DbRow) :
    (sortRows l).Pairwise (fun a b => lexLe (keyList a) (keyList b) = true) := by
  induction l with
  | nil => simp [sortRows]
  | cons r rest ih => exact sorted_insertSorted r _ ih

/-- In a `Pairwise`-ordered list, every element either is the last one
or relates to it. -/
theorem pairwise_rel_getLast {R : DbRow → DbRow → Prop} :
    ∀ (l : List DbRow) (hne : l ≠ []), l.Pairwise R →
      ∀ x ∈ l, x = l.getLast hne ∨ R x (l.getLast hne)
  | [], hne, _, _, _ => absurd rfl hne
  | [a], _, _, x, hx => by
    simp only [List.mem_singleton] at hx
    subst hx
    left
    rfl
  | a :: b :: t, _, hp, x, hx => by
    have hne' : b :: t ≠ [] := by simp
    rw [List.getLast_cons hne']
    rcases List.mem_cons.mp hx with rfl | hx'
    · right
      exact (List.pairwise_cons.mp hp).1 _ (List.getLast_mem hne')
    · exact pairwise_rel_getLast (b :: t) hne' (List.pairwise_cons.mp hp).2 x hx'

/-- On a table whose rows all share the non-time key, the
`'last combinations'` reduction keeps exactly the final row. -/
theorem lastCombinations_same_key :
    ∀ (db : List DbRow) (hne : db ≠ []),
      (∀ r ∈ db, nonTimeKey r = nonTimeKey (db.getLast hne)) →
      lastCombinations db = [db.getLast hne]
  | [], hne, _ => absurd rfl hne
  | [r], _, _ => by simp [lastCombinations]
  | r :: s :: t, hne, hkey => by
    have hne' : s :: t ≠ [] := by simp
    have hlast : (r :: s :: t).getLast hne = (s :: t).getLast hne' :=
      List.getLast_cons hne'
    have h1 : nonTimeKey s = nonTimeKey r := by
      rw [hkey s (by simp), hkey r (by simp)]
    have hany : (s :: t).any (fun x => nonTimeKey x == nonTimeKey r) = true := by
      simp [List.any_cons, h1]
    rw [lastCombinations, if_pos hany, hlast]
    exact lastCombinations_same_key (s :: t) hne'
      (fun x hx => by rw [hkey x (by simp [hx]), hlast])

/-- The all-wildcard index selects every row. -/
theorem filter_default_index (db : List DbRow) : db.filter (matchesIndex {}) = db :=
  List.filter_eq_self.mpr (fun a _ => rfl)

/-- C6: on a table of N rows sharing one non-time key, appended at
strictly increasing timestamps (so the table's final row is the
chronologically last), `load` with `'last combinations'` returns exactly
that one final row — the chronologically last — and `load` with `'all'`
returns all N rows. -/
theorem store_fold_c6 (db : List DbRow) (hne : db ≠ [])
    (hkey : ∀ r ∈ db, ∀ s ∈ db, nonTimeKey r = nonTimeKey s)
    (htime : db.Pairwise chronoLt) :
    ∃ m, db.getLast? = some m ∧
      load_database db {} .lastCombinations = .ok [m] ∧
      (∀ r ∈ db, r = m ∨ chronoLt r m) ∧
      load_database db {} .all = .ok db := by
  have hie : db.isEmpty = false := by
    cases db with
    | nil => exact absurd rfl hne
    | cons a t => rfl
  refine ⟨db.getLast hne, List.getLast?_eq_getLast db hne, ?_, ?_, ?_⟩
  · simp only [load_database, filter_default_index, hie, Bool.false_eq_true,
      if_false]
    rw [lastCombinations_same_key db hne
      (fun r hr => hkey r hr _ (List.getLast_mem hne))]
  · exact fun r hr => pairwise_rel_getLast db hne htime r hr
  · simp only [load_database, filter_default_index, hie, Bool.false_eq_true,
      if_false]

/-- C6 witness: the fold theorem on the concrete two-row table
`[rowA, rowC]` (same non-time key, increasing timestamps). -/
theorem store_fold_c6_wit :
    (([rowA, rowC] : List DbRow) ≠ []) ∧
    (∀ r ∈ ([rowA, rowC] : List DbRow), ∀ s ∈ ([rowA, rowC] : List DbRow),
      nonTimeKey r = nonTimeKey s) ∧
    ([rowA, rowC] : List DbRow).Pairwise chronoLt ∧
    (∃ m, ([rowA, rowC] : List DbRow).getLast? = some m ∧
      load_database [rowA, rowC] {} .lastCombinations = .ok [m] ∧
      (∀ r ∈ ([rowA, rowC] : List DbRow), r = m ∨ chronoLt r m) ∧
      load_database [rowA, rowC] {} .all = .ok [rowA, rowC]) := by
  refine ⟨by decide, by decide, ?_, ?_⟩
  · refine List.pairwise_cons.mpr ⟨?_, ?_⟩
    · intro s hs
      simp only [List.mem_singleton] at hs
      subst hs
      left
      decide
    · simp
  · refine store_fold_c6 _ (by decide) (by decide) ?_
    refine List.pairwise_cons.mpr ⟨?_, by simp⟩
    intro s hs
    simp only [List.mem_singleton] at hs
    subst hs
    left
    decide

/-- C7 counterexample: the claim says `'latest'` returns the single
most-recent row by date then time among the rows matched by the index
filter.  With two rows under device `1` — wavelength `488` dated
`2022-01-02` and wavelength `561` dated `2022-01-01` — the code sorts by
the whole five-level index and takes the last row, returning the
wavelength-`561` row even though its date is strictly older. -/
theorem latest_not_chrono_c7_cex :
    load_database [rowA, rowB] ⟨some 1, none, none, none, none⟩ .latest = .ok [rowB] ∧
    rowB.date < rowA.date := by decide

/-- C7 amended: `'latest'` returns the row that is maximal in the
lexicographic order of the full `(device, wavelength, laser_power, date,
time)` index among the matched rows — which is the most-recent by
date/time only when all matched rows share the non-time key fields — and
after saving one record into an empty store, loading with a matching
index and `'latest'` returns exactly that record. -/
theorem latest_lex_max_c7 (db : List DbRow) (idx : DbIndex)
    (hne : db.filter (matchesIndex idx) ≠ [])
    (r0 : DbRow) (idx0 : DbIndex) (hm : matchesIndex idx0 r0 = true) :
    (∃ m, load_database db idx .latest = .ok [m] ∧
      m ∈ db.filter (matchesIndex idx) ∧
      ∀ r ∈ db.filter (matchesIndex idx), lexLe (keyList r) (keyList m) = true) ∧
    load_database (save_calibration none r0) idx0 .latest = .ok [r0] := by
  constructor
  · have hsne : sortRows (db.filter (matchesIndex idx)) ≠ [] := by
      obtain ⟨x, hx⟩ := List.exists_mem_of_ne_nil _ hne
      exact List.ne_nil_of_mem ((mem_sortRows x _).mpr hx)
    have hie : (db.filter (matchesIndex idx)).isEmpty = false := by
      cases hfe : db.filter (matchesIndex idx) with
      | nil => exact absurd hfe hne
      | cons a t => rfl
    refine ⟨(sortRows (db.filter (matchesIndex idx))).getLast hsne, ?_, ?_, ?_⟩
    · simp only [load_database, hie, Bool.false_eq_true, if_false]
      rw [List.getLast?_eq_getLast _ hsne]
    · exact (mem_sortRows _ _).mp (List.getLast_mem hsne)
    · intro r hr
      have hr' : r ∈ sortRows (db.filter (matchesIndex idx)) :=
        (mem_sortRows r _).mpr hr
      rcases pairwise_rel_getLast _ hsne (sorted_sortRows _) r hr' with rfl | h
      · exact lexLe_refl _
      · exact h
  · simp only [save_calibration, load_database, List.filter, hm]
    rfl

/-- C7 witness: the amended theorem on the concrete two-row table
`[rowA, rowC]` with the all-wildcard index, and the end-to-end
save-then-load example with `rowA` and a device filter. -/
theorem latest_lex_max_c7_wit :
    ([rowA, rowC].filter (matchesIndex {}) ≠ []) ∧
    matchesIndex ⟨some 1, none, none, none, none⟩ rowA = true ∧
    ((∃ m, load_database [rowA, rowC] {} .latest = .ok [m] ∧
        m ∈ [rowA, rowC].filter (matchesIndex {}) ∧
        ∀ r ∈ [rowA, rowC].filter (matchesIndex {}),
          lexLe (keyList r) (keyList m) = true) ∧
      load_database (save_calibration none rowA) ⟨some 1, none, none, none, none⟩
        .latest = .ok [rowA]) :=
  ⟨by decide, by decide, latest_lex_max_c7 _ _ (by decide) _ _ (by decide)⟩

/-- C5 counterexample: the claim says the Linear variant's
`output_range()` returns `(bkg + amp*min, bkg + amp*max)` rather than
failing; with `bkg = 0`, `amp = 1` on bounds `[0, 1]` the code raises
`NotImplementedError` instead of returning `(0, 1)`. -/
theorem linear_output_range_c5_cex :
    linear_output_range ⟨0, 1⟩ 0 1 = .error .notImplementedError ∧
    linear_output_range ⟨0, 1⟩ 0 1 ≠ .ok (0 + 1 * 0, 0 + 1 * 1) :=
  ⟨rfl, by simp [linear_output_range]⟩

/-- C5 amended: the Linear variant does not implement `output_range` —
it raises `NotImplementedError` for every parameter set and bound — while
the Point variant (and, per C2/C3, the Sinusoidal variant) does return a
range, `(amp, amp)` for Point. -/
theorem output_range_contract_c5 :
    (∀ (p : LinearParams) (mini maxi : ℝ),
      linear_output_range p mini maxi = .error .notImplementedError) ∧
    (∀ a : ℝ, point_output_range a = .ok (a, a)) :=
  ⟨fun _ _ _ => rfl, fun _ => rfl⟩

/-- C2 counterexample: the claim says `output_range()` contains
`evaluate(x)` for every `x` in the domain bounds.  With `bkg = 0`,
`amp = 1`, `phi = 45` on bounds `[60, 75]`, the curve's interior maximum
sits at `x = 67.5` with `evaluate(67.5) = 1`, but the code tests the
fixed positions `22.5 + 90k` — ignoring `phi` — finds none below `75`,
and returns the boundary value `(1 + √3/2)/2 < 1` as the maximum. -/
theorem output_range_misses_max_c2_cex :
    (60:ℝ) ≤ 135/2 ∧ (135/2:ℝ) ≤ 75 ∧
    (sinus_output_range ⟨0, 1, 45⟩ 60 75).2 < sinus_model_function ⟨0, 1, 45⟩ (135/2) := by
  have hfl : ⌊((60:ℝ) - 180/8)/90⌋ = 0 := by
    rw [Int.floor_eq_iff]
    norm_num
  have hcond : ¬ (next_maxphi_from_min 60 < (75:ℝ)) := by
    rw [next_maxphi_from_min, hfl]
    norm_num
  have hs1 : sinus_model_function ⟨0, 1, 45⟩ 60 = (1 + Real.sqrt 3 / 2) / 2 := by
    have harg : 4 * Real.pi / 180 * ((60:ℝ) + 45) = Real.pi / 3 + 2 * Real.pi := by
      ring
    simp only [sinus_model_function]
    rw [harg, Real.sin_add_two_pi, Real.sin_pi_div_three]
    norm_num
  have hs2 : sinus_model_function ⟨0, 1, 45⟩ 75 = (1 + Real.sqrt 3 / 2) / 2 := by
    have harg : 4 * Real.pi / 180 * ((75:ℝ) + 45) = (Real.pi - Real.pi / 3) + 2 * Real.pi := by
      ring
    simp only [sinus_model_function]
    rw [harg, Real.sin_add_two_pi, Real.sin_pi_sub, Real.sin_pi_div_three]
    norm_num
  have hs3 : sinus_model_function ⟨0, 1, 45⟩ (135/2) = 1 := by
    have harg : 4 * Real.pi / 180 * ((135:ℝ)/2 + 45) = Real.pi / 2 + 2 * Real.pi := by
      ring
    simp only [sinus_model_function]
    rw [harg, Real.sin_add_two_pi, Real.sin_pi_div_two]
    norm_num
  have hsq : Real.sqrt 3 < 2 := by
    nlinarith [Real.sq_sqrt (show (0:ℝ) ≤ 3 by norm_num), Real.sqrt_nonneg 3]
  refine ⟨by norm_num, by norm_num, ?_⟩
  have h2 : (sinus_output_range ⟨0, 1, 45⟩ 60 75).2 =
      max (sinus_model_function ⟨0, 1, 45⟩ 60) (sinus_model_function ⟨0, 1, 45⟩ 75) := by
    simp only [sinus_output_range]
    rw [if_neg hcond]
  rw [h2, hs1, hs2, hs3, max_self]
  nlinarith

/-- Evaluation distributes over coefficient-wise polynomial addition. -/
theorem polyEval_addPoly (a b : List ℝ) (x : ℝ) :
    polyEval (addPoly a b) x = polyEval a x + polyEval b x := by
  induction a generalizing b with
  | nil => simp [addPoly, polyEval]
  | cons c cs ih =>
    cases b with
    | nil => simp [addPoly, polyEval]
    | cons d ds =>
      simp only [addPoly, polyEval, List.foldr] at *
      rw [ih]
      ring

/-- The polynomial function has the derivative-polynomial's value as its
derivative everywhere. -/
theorem hasDerivAt_polyEval (coef : List ℝ) (x : ℝ) :
    HasDerivAt (fun t => polyEval coef t) (polyEval (polyDeriv coef) x) x := by
  induction coef with
  | nil =>
    simpa [polyEval, polyDeriv] using hasDerivAt_const x (0:ℝ)
  | cons c cs ih =>
    have h1 : HasDerivAt (fun t : ℝ => t * polyEval cs t)
        (1 * polyEval cs x + x * polyEval (polyDeriv cs) x) x :=
      (hasDerivAt_id x).mul ih
    have h2 : HasDerivAt (fun t : ℝ => c + t * polyEval cs t)
        (0 + (1 * polyEval cs x + x * polyEval (polyDeriv cs) x)) x :=
      (hasDerivAt_const x c).add h1
    have h3 : polyEval (polyDeriv (c :: cs)) x =
        0 + (1 * polyEval cs x + x * polyEval (polyDeriv cs) x) := by
      show polyEval (addPoly cs (0 :: polyDeriv cs)) x = _
      rw [polyEval_addPoly]
      simp [polyEval]
    rw [show (fun t => polyEval (c :: cs) t) = (fun t : ℝ => c + t * polyEval cs t)
      from rfl, h3]
    exact h2

/-- Polynomial functions are differentiable. -/
theorem differentiable_polyEval (coef : List ℝ) :
    Differentiable ℝ (fun t => polyEval coef t) :=
  fun x => (hasDerivAt_polyEval coef x).differentiableAt

/-- The analytic derivative of the polynomial function is the derivative
polynomial. -/
theorem deriv_polyEval (coef : List ℝ) (x : ℝ) :
    deriv (fun t => polyEval coef t) x = polyEval (polyDeriv coef) x :=
  (hasDerivAt_polyEval coef x).deriv

/-- A `min`-fold is below its initial value. -/
theorem foldr_min_le_init (l : List ℝ) (b : ℝ) : l.foldr min b ≤ b := by
  induction l with
  | nil => exact le_refl b
  | cons a t ih => exact le_trans (min_le_right a _) ih

/-- A `min`-fold is below every list member. -/
theorem foldr_min_le_mem (l : List ℝ) (b a : ℝ) (h : a ∈ l) : l.foldr min b ≤ a := by
  induction l with
  | nil => simp at h
  | cons c t ih =>
    rcases List.mem_cons.mp h with rfl | h'
    · exact min_le_left a _
    · exact le_trans (min_le_right c _) (ih h')

/-- A `max`-fold is above its initial value. -/
theorem init_le_foldr_max (l : List ℝ) (b : ℝ) : b ≤ l.foldr max b := by
  induction l with
  | nil => exact le_refl b
  | cons a t ih => exact le_trans ih (le_max_right a _)

/-- A `max`-fold is above every list member. -/
theorem mem_le_foldr_max (l : List ℝ) (b a : ℝ) (h : a ∈ l) : a ≤ l.foldr max b := by
  induction l with
  | nil => simp at h
  | cons c t ih =>
    rcases List.mem_cons.mp h with rfl | h'
    · exact le_max_left a _
    · exact le_trans (ih h') (le_max_right c _)

/-- The polynomial `output_range` — boundary values plus the values at
the derivative's interior roots — contains every value of the polynomial
over the bounds: the extremum of the continuous polynomial on the
compact interval is attained at an endpoint or at an interior point
where the derivative vanishes. -/
theorem polynom_output_range_contains (coef extremes : List ℝ) (pmini pmaxi y : ℝ)
    (hple : pmini ≤ pmaxi) (hy : y ∈ Set.Icc pmini pmaxi)
    (hex : ∀ e, polyEval (polyDeriv coef) e = 0 → pmini < e → e < pmaxi →
      e ∈ extremes) :
    (polynom_output_range coef pmini pmaxi extremes).1 ≤ polyEval coef y ∧
    polyEval coef y ≤ (polynom_output_range coef pmini pmaxi extremes).2 := by
  have hcont : ContinuousOn (fun t => polyEval coef t) (Set.Icc pmini pmaxi) :=
    (differentiable_polyEval coef).continuous.continuousOn
  have hne : (Set.Icc pmini pmaxi).Nonempty := Set.nonempty_Icc.mpr hple
  constructor
  · obtain ⟨c, hc, hmin⟩ := isCompact_Icc.exists_isMinOn hne hcont
    have hyc : polyEval coef c ≤ polyEval coef y := isMinOn_iff.mp hmin y hy
    refine le_trans ?_ hyc
    rcases eq_or_lt_of_le hc.1 with h1 | h1
    · rw [← h1]
      exact foldr_min_le_init _ _
    · rcases eq_or_lt_of_le hc.2 with h2 | h2
      · rw [h2]
        exact foldr_min_le_mem _ _ _ (List.mem_cons_self _ _)
      · have hz : polyEval (polyDeriv coef) c = 0 := by
          rw [← deriv_polyEval]
          exact (hmin.isLocalMin (Icc_mem_nhds h1 h2)).deriv_eq_zero
        exact foldr_min_le_mem _ _ _
          (List.mem_cons_of_mem _ (List.mem_map_of_mem _ (hex c hz h1 h2)))
  · obtain ⟨c, hc, hmax⟩ := isCompact_Icc.exists_isMaxOn hne hcont
    have hyc : polyEval coef y ≤ polyEval coef c := isMaxOn_iff.mp hmax y hy
    refine le_trans hyc ?_
    rcases eq_or_lt_of_le hc.1 with h1 | h1
    · rw [← h1]
      exact init_le_foldr_max _ _
    · rcases eq_or_lt_of_le hc.2 with h2 | h2
      · rw [h2]
        exact mem_le_foldr_max _ _ _ (List.mem_cons_self _ _)
      · have hz : polyEval (polyDeriv coef) c = 0 := by
          rw [← deriv_polyEval]
          exact (hmax.isLocalMax (Icc_mem_nhds h1 h2)).deriv_eq_zero
        exact mem_le_foldr_max _ _ _
          (List.mem_cons_of_mem _ (List.mem_map_of_mem _ (hex c hz h1 h2)))

/-- C2 amended: `output_range()` containment per variant.  It holds for
the Polynomial variant (whose range — the endpoint values together with
the polynomial's values at the derivative's real roots inside the
bounds — contains `evaluate(y)` for every `y` in the bounds) and for the
Point variant (`(amp, amp)` contains its constant `evaluate`).  For the
Sinusoidal variant it holds whenever the code's fixed-position
interior-extremum tests both fire, the range then being
`[bkg, bkg + amp]` (`amp ≥ 0`, as the fit enforces); when a
boundary-value branch is taken the containment can fail for
`phi ≢ 0 (mod 90)`, because the extremum test ignores the fitted `phi`
(see the counterexample).  The Linear variant's `output_range` raises
instead of returning a range (see C5). -/
theorem output_range_contains_c2 (p : SinusParams) (mini maxi x : ℝ)
    (hamp : 0 ≤ p.amp)
    (hmax : next_maxphi_from_min mini < maxi)
    (hmin : next_minphi_from_min mini < maxi)
    (coef extremes : List ℝ) (pmini pmaxi y : ℝ)
    (hple : pmini ≤ pmaxi) (hy : y ∈ Set.Icc pmini pmaxi)
    (hex : ∀ e, polyEval (polyDeriv coef) e = 0 → pmini < e → e < pmaxi →
      e ∈ extremes)
    (a z : ℝ) :
    ((sinus_output_range p mini maxi).1 ≤ sinus_model_function p x ∧
      sinus_model_function p x ≤ (sinus_output_range p mini maxi).2) ∧
    ((polynom_output_range coef pmini pmaxi extremes).1 ≤ polyEval coef y ∧
      polyEval coef y ≤ (polynom_output_range coef pmini pmaxi extremes).2) ∧
    (point_output_range a = .ok (a, a) ∧
      a ≤ point_estimate_power a z ∧ point_estimate_power a z ≤ a) := by
  refine ⟨?_, polynom_output_range_contains coef extremes pmini pmaxi y hple hy hex,
    rfl, le_refl a, le_refl a⟩
  have h1 := Real.neg_one_le_sin (4 * Real.pi / 180 * (x + p.phi))
  have h2 := Real.sin_le_one (4 * Real.pi / 180 * (x + p.phi))
  constructor
  · have hlo : (sinus_output_range p mini maxi).1 = p.bkg := by
      simp only [sinus_output_range]
      rw [if_pos hmin]
    rw [hlo, sinus_model_function]
    nlinarith
  · have hhi : (sinus_output_range p mini maxi).2 = p.bkg + p.amp := by
      simp only [sinus_output_range]
      rw [if_pos hmax]
    rw [hhi, sinus_model_function]
    nlinarith

/-- C2 witness: the containment theorem instantiated at the Sinusoidal
model `bkg = 0, amp = 1, phi = 45` on bounds `[0, 180]` at `x = 10`, the
polynomial `x^2` on bounds `[-1, 2]` (derivative root `0` inside) at
`y = 1`, and the Point model `amp = 7` at `z = 3`. -/
theorem output_range_contains_c2_wit :
    (0:ℝ) ≤ 1 ∧ next_maxphi_from_min 0 < 180 ∧ next_minphi_from_min 0 < 180 ∧
    (-1:ℝ) ≤ 2 ∧ (1:ℝ) ∈ Set.Icc (-1:ℝ) 2 ∧
    (∀ e, polyEval (polyDeriv [(0:ℝ), 0, 1]) e = 0 → (-1:ℝ) < e → e < 2 →
      e ∈ ([0] : List ℝ)) ∧
    (((sinus_output_range ⟨0, 1, 45⟩ 0 180).1 ≤ sinus_model_function ⟨0, 1, 45⟩ 10 ∧
        sinus_model_function ⟨0, 1, 45⟩ 10 ≤ (sinus_output_range ⟨0, 1, 45⟩ 0 180).2) ∧
      ((polynom_output_range [(0:ℝ), 0, 1] (-1) 2 [0]).1 ≤ polyEval [(0:ℝ), 0, 1] 1 ∧
        polyEval [(0:ℝ), 0, 1] 1 ≤ (polynom_output_range [(0:ℝ), 0, 1] (-1) 2 [0]).2) ∧
      (point_output_range 7 = .ok (7, 7) ∧
        (7:ℝ) ≤ point_estimate_power 7 3 ∧ point_estimate_power 7 3 ≤ 7)) := by
  have hmax : next_maxphi_from_min 0 < (180:ℝ) := by
    have hfl : ⌊((0:ℝ) - 180/8)/90⌋ = -1 := by
      rw [Int.floor_eq_iff]
      norm_num
    rw [next_maxphi_from_min, hfl]
    norm_num
  have hmin : next_minphi_from_min 0 < (180:ℝ) := by
    have hfl : ⌊((0:ℝ) - 3/8*180)/90⌋ = -1 := by
      rw [Int.floor_eq_iff]
      norm_num
    rw [next_minphi_from_min, hfl]
    norm_num
  have hy : (1:ℝ) ∈ Set.Icc (-1:ℝ) 2 := by
    rw [Set.mem_Icc]
    norm_num
  have hex : ∀ e, polyEval (polyDeriv [(0:ℝ), 0, 1]) e = 0 → (-1:ℝ) < e → e < 2 →
      e ∈ ([0] : List ℝ) := by
    intro e he h1 h2
    have hd : polyEval (polyDeriv [(0:ℝ), 0, 1]) e = 2 * e := by
      norm_num [polyDeriv, addPoly, polyEval]
      ring
    rw [hd] at he
    have : e = 0 := by linarith
    simp [this]
  exact ⟨by norm_num, hmax, hmin, by norm_num, hy, hex,
    output_range_contains_c2 ⟨0, 1, 45⟩ 0 180 10 (by norm_num) hmax hmin
      [0, 0, 1] [0] (-1) 2 1 (by norm_num) hy hex 7 3⟩

/-- The folding loop leaves a value already inside the bounds
untouched. -/
theorem fold_into_bounds_id (mini maxi alpha : ℝ) (n : ℕ)
    (h1 : mini ≤ alpha) (h2 : alpha ≤ maxi) :
    fold_into_bounds mini maxi n alpha = alpha := by
  cases n with
  | zero => rfl
  | succ m => rw [fold_into_bounds, if_neg (not_lt.mpr h1), if_neg (not_lt.mpr h2)]

/-- For `amp ≥ 0` the sinusoidal `output_range` lies inside the full
envelope `[bkg, bkg + amp]`. -/
theorem sinus_output_range_subset (p : SinusParams) (mini maxi : ℝ)
    (hamp : 0 ≤ p.amp) :
    p.bkg ≤ (sinus_output_range p mini maxi).1 ∧
    (sinus_output_range p mini maxi).2 ≤ p.bkg + p.amp := by
  have b1 := Real.neg_one_le_sin (4 * Real.pi / 180 * (mini + p.phi))
  have b2 := Real.sin_le_one (4 * Real.pi / 180 * (mini + p.phi))
  have b3 := Real.neg_one_le_sin (4 * Real.pi / 180 * (maxi + p.phi))
  have b4 := Real.sin_le_one (4 * Real.pi / 180 * (maxi + p.phi))
  constructor
  · simp only [sinus_output_range]
    by_cases h : next_minphi_from_min mini < maxi
    · rw [if_pos h]
    · rw [if_neg h]
      refine le_min ?_ ?_ <;> rw [sinus_model_function] <;> nlinarith
  · simp only [sinus_output_range]
    by_cases h : next_maxphi_from_min mini < maxi
    · rw [if_pos h]
    · rw [if_neg h]
      refine max_le ?_ ?_ <;> rw [sinus_model_function] <;> nlinarith

/-- C3 counterexample: the claim says `invert(y)` fails exactly when `y`
lies outside `output_range()`.  With `bkg = 0`, `amp = 1`, `phi = 0` on
bounds `[0, 7.5]`, `output_range()` is `[1/2, 3/4]`, yet `invert(1)`
succeeds (the range check is against `[bkg, bkg + amp] = [0, 1]`), and —
the folding loop failing to converge — even returns the out-of-bounds
control value `-67.5`. -/
theorem invert_beyond_output_range_c3_cex :
    sinus_model_function_inv ⟨0, 1, 0⟩ 0 (15/2) 1 = .ok (-(135/2)) ∧
    (sinus_output_range ⟨0, 1, 0⟩ 0 (15/2)).2 < 1 := by
  constructor
  · have hcond : ¬((1:ℝ) < 0 ∨ (1:ℝ) > 0 + 1) := by norm_num
    rw [sinus_model_function_inv, if_neg hcond]
    have halpha : Real.arcsin (((1:ℝ) - 0) / 1 * 2 - 1) / 4 * 180 / Real.pi - 0 = 45/2 := by
      have h1 : ((1:ℝ) - 0) / 1 * 2 - 1 = 1 := by norm_num
      rw [h1, Real.arcsin_one]
      field_simp
      ring
    rw [halpha]
    have hfold : fold_into_bounds 0 (15/2) 5 (45/2 : ℝ) = -(135/2) := by
      norm_num [fold_into_bounds]
    rw [hfold]
  · have hfl : ⌊((0:ℝ) - 180/8)/90⌋ = -1 := by
      rw [Int.floor_eq_iff]
      norm_num
    have hcond : ¬ (next_maxphi_from_min 0 < ((15:ℝ)/2)) := by
      rw [next_maxphi_from_min, hfl]
      norm_num
    have hs1 : sinus_model_function ⟨0, 1, 0⟩ 0 = 1/2 := by
      have harg : 4 * Real.pi / 180 * ((0:ℝ) + 0) = 0 := by ring
      simp only [sinus_model_function]
      rw [harg, Real.sin_zero]
      norm_num
    have hs2 : sinus_model_function ⟨0, 1, 0⟩ (15/2) = 3/4 := by
      have harg : 4 * Real.pi / 180 * ((15:ℝ)/2 + 0) = Real.pi / 6 := by ring
      simp only [sinus_model_function]
      rw [harg, Real.sin_pi_div_six]
      norm_num
    have h2 : (sinus_output_range ⟨0, 1, 0⟩ 0 (15/2)).2 =
        max (sinus_model_function ⟨0, 1, 0⟩ 0) (sinus_model_function ⟨0, 1, 0⟩ (15/2)) := by
      simp only [sinus_output_range]
      rw [if_neg hcond]
    rw [h2, hs1, hs2]
    norm_num

/-- C3 amended: the Sinusoidal `invert` raises exactly when `y` lies
outside the full-period envelope `[bkg, bkg + amp]` — not outside
`output_range()` — with the error carrying the requested value and that
envelope; since `output_range() ⊆ [bkg, bkg + amp]` for `amp ≥ 0`,
inversion still succeeds for every `y` inside `output_range()`.  The
Linear `invert` raises exactly when `y` lies outside
`[bkg + amp*min, bkg + amp*max]` (its achievable range for `amp ≥ 0`,
which its unimplemented `output_range` never reports), with the error
carrying the requested value and those bounds. -/
theorem invert_range_check_c3 (p : SinusParams) (q : LinearParams)
    (mini maxi y z : ℝ) (hamp : 0 ≤ p.amp) :
    (y < p.bkg ∨ y > p.bkg + p.amp →
      sinus_model_function_inv p mini maxi y =
        .error (.outOfRange y p.bkg (p.bkg + p.amp))) ∧
    ((sinus_output_range p mini maxi).1 ≤ y →
      y ≤ (sinus_output_range p mini maxi).2 →
      ∃ x, sinus_model_function_inv p mini maxi y = .ok x) ∧
    (z < q.bkg + q.amp * mini ∨ z > q.bkg + q.amp * maxi →
      linear_model_function_inv q mini maxi z =
        .error (.outOfRange z (q.bkg + q.amp * mini) (q.bkg + q.amp * maxi))) ∧
    (¬(z < q.bkg + q.amp * mini ∨ z > q.bkg + q.amp * maxi) →
      linear_model_function_inv q mini maxi z = .ok ((z - q.bkg) / q.amp)) := by
  refine ⟨?_, ?_, ?_, ?_⟩
  · intro h
    rw [sinus_model_function_inv, if_pos h]
  · intro hlo hhi
    obtain ⟨hb1, hb2⟩ := sinus_output_range_subset p mini maxi hamp
    have hcond : ¬(y < p.bkg ∨ y > p.bkg + p.amp) := by
      push_neg
      exact ⟨le_trans hb1 hlo, le_trans hhi hb2⟩
    rw [sinus_model_function_inv, if_neg hcond]
    exact ⟨_, rfl⟩
  · intro h
    rw [linear_model_function_inv, if_pos h]
  · intro h
    rw [linear_model_function_inv, if_neg h]

/-- C3 witness: the range-check theorem instantiated at
`bkg = 0, amp = 1, phi = 0` on bounds `[0, 90]` with `y = 2`, and the
linear model `bkg = 0, amp = 2` with `z = 5`. -/
theorem invert_range_check_c3_wit :
    (0:ℝ) ≤ 1 ∧
    (((2:ℝ) < 0 ∨ (2:ℝ) > 0 + 1) →
      sinus_model_function_inv ⟨0, 1, 0⟩ 0 90 2 = .error (.outOfRange 2 0 (0 + 1))) ∧
    ((sinus_output_range ⟨0, 1, 0⟩ 0 90).1 ≤ (2:ℝ) →
      (2:ℝ) ≤ (sinus_output_range ⟨0, 1, 0⟩ 0 90).2 →
      ∃ x, sinus_model_function_inv ⟨0, 1, 0⟩ 0 90 2 = .ok x) ∧
    (((5:ℝ) < 0 + 2 * 0 ∨ (5:ℝ) > 0 + 2 * 90) →
      linear_model_function_inv ⟨0, 2⟩ 0 90 5 = .error (.outOfRange 5 (0 + 2 * 0) (0 + 2 * 90))) ∧
    (¬((5:ℝ) < 0 + 2 * 0 ∨ (5:ℝ) > 0 + 2 * 90) →
      linear_model_function_inv ⟨0, 2⟩ 0 90 5 = .ok ((5 - 0) / 2)) :=
  ⟨by norm_num, invert_range_check_c3 ⟨0, 1, 0⟩ ⟨0, 2⟩ 0 90 2 5 (by norm_num)⟩

/-- C4 counterexample: the claim says `invert(evaluate(x))` equals `x`
modulo one 90-degree period folded into the bounds.  With `bkg = 0`,
`amp = 1`, `phi = 0` on bounds `[0, 40]`, taking `x = 30` (whose sine
argument lies in the reflected branch), the inverse returns `15` — the
mirror point with the same power, not `30` nor `30 ± 90k` — so the
round trip holds in `y` but not in `x`. -/
theorem roundtrip_reflected_c4_cex :
    sinus_model_function_inv ⟨0, 1, 0⟩ 0 40 (sinus_model_function ⟨0, 1, 0⟩ 30) = .ok 15 ∧
    (15:ℝ) ≠ 30 ∧
    sinus_model_function ⟨0, 1, 0⟩ 15 = sinus_model_function ⟨0, 1, 0⟩ 30 := by
  have hsq0 : (0:ℝ) ≤ Real.sqrt 3 := Real.sqrt_nonneg 3
  have hsq : Real.sqrt 3 < 2 := by
    nlinarith [Real.sq_sqrt (show (0:ℝ) ≤ 3 by norm_num)]
  have hy : sinus_model_function ⟨0, 1, 0⟩ 30 = (1 + Real.sqrt 3 / 2) / 2 := by
    have harg : 4 * Real.pi / 180 * ((30:ℝ) + 0) = Real.pi - Real.pi / 3 := by ring
    simp only [sinus_model_function]
    rw [harg, Real.sin_pi_sub, Real.sin_pi_div_three]
    norm_num
  refine ⟨?_, by norm_num, ?_⟩
  · rw [hy]
    have hcond : ¬(((1:ℝ) + Real.sqrt 3 / 2) / 2 < 0 ∨ ((1:ℝ) + Real.sqrt 3 / 2) / 2 > 0 + 1) := by
      push_neg
      constructor <;> nlinarith
    rw [sinus_model_function_inv, if_neg hcond]
    have h1 : (((1:ℝ) + Real.sqrt 3 / 2) / 2 - 0) / 1 * 2 - 1 = Real.sin (Real.pi / 3) := by
      rw [Real.sin_pi_div_three]
      ring
    have halpha : Real.arcsin ((((1:ℝ) + Real.sqrt 3 / 2) / 2 - 0) / 1 * 2 - 1) /
        4 * 180 / Real.pi - 0 = 15 := by
      rw [h1, Real.arcsin_sin (by nlinarith [Real.pi_pos]) (by nlinarith [Real.pi_pos])]
      rw [sub_zero]
      field_simp
      ring
    rw [halpha, fold_into_bounds_id 0 40 15 5 (by norm_num) (by norm_num)]
  · have hx : sinus_model_function ⟨0, 1, 0⟩ 15 = (1 + Real.sqrt 3 / 2) / 2 := by
      have harg : 4 * Real.pi / 180 * ((15:ℝ) + 0) = Real.pi / 3 := by ring
      simp only [sinus_model_function]
      rw [harg, Real.sin_pi_div_three]
      norm_num
    rw [hx, hy]

/-- C4 amended: the round trip in `x` is exact for the Linear variant
(`amp > 0`, `x` within bounds), and exact for the Sinusoidal variant
whenever the sine argument `4π/180·(x + phi)` lies in the principal
branch `[-π/2, π/2]` and `x` lies within bounds (no folding needed); for
arguments in the reflected branch the inverse returns the mirror point
with the same power instead (see the counterexample). -/
theorem roundtrip_principal_c4 (p : SinusParams) (q : LinearParams)
    (mini maxi x w : ℝ)
    (hamp : 0 < p.amp) (hx1 : mini ≤ x) (hx2 : x ≤ maxi)
    (ht1 : -(Real.pi / 2) ≤ 4 * Real.pi / 180 * (x + p.phi))
    (ht2 : 4 * Real.pi / 180 * (x + p.phi) ≤ Real.pi / 2)
    (hqa : 0 < q.amp) (hw1 : mini ≤ w) (hw2 : w ≤ maxi) :
    sinus_model_function_inv p mini maxi (sinus_model_function p x) = .ok x ∧
    linear_model_function_inv q mini maxi (linear_model_function q w) = .ok w := by
  have hs1 := Real.neg_one_le_sin (4 * Real.pi / 180 * (x + p.phi))
  have hs2 := Real.sin_le_one (4 * Real.pi / 180 * (x + p.phi))
  constructor
  · have hcond : ¬(sinus_model_function p x < p.bkg ∨
        sinus_model_function p x > p.bkg + p.amp) := by
      push_neg
      rw [sinus_model_function]
      constructor <;> nlinarith
    rw [sinus_model_function_inv, if_neg hcond]
    have h1 : (sinus_model_function p x - p.bkg) / p.amp * 2 - 1 =
        Real.sin (4 * Real.pi / 180 * (x + p.phi)) := by
      rw [sinus_model_function]
      field_simp
      ring
    have halpha : Real.arcsin ((sinus_model_function p x - p.bkg) / p.amp * 2 - 1) /
        4 * 180 / Real.pi - p.phi = x := by
      rw [h1, Real.arcsin_sin ht1 ht2]
      field_simp [Real.pi_ne_zero]
      ring
    rw [halpha, fold_into_bounds_id mini maxi x 5 hx1 hx2]
  · have hcond : ¬(linear_model_function q w < q.bkg + q.amp * mini ∨
        linear_model_function q w > q.bkg + q.amp * maxi) := by
      push_neg
      rw [linear_model_function]
      constructor <;> nlinarith
    rw [linear_model_function_inv, if_neg hcond]
    rw [linear_model_function]
    congr 1
    field_simp

/-- C4 witness: the principal-branch round-trip theorem instantiated at
`bkg = 0, amp = 1, phi = 0`, `x = 10` on bounds `[0, 20]` and the linear
model `bkg = 0, amp = 2`, `w = 3`. -/
theorem roundtrip_principal_c4_wit :
    (0:ℝ) < 1 ∧ (0:ℝ) ≤ 10 ∧ (10:ℝ) ≤ 20 ∧
    -(Real.pi / 2) ≤ 4 * Real.pi / 180 * ((10:ℝ) + 0) ∧
    4 * Real.pi / 180 * ((10:ℝ) + 0) ≤ Real.pi / 2 ∧
    (0:ℝ) < 2 ∧ (0:ℝ) ≤ 3 ∧ (3:ℝ) ≤ 20 ∧
    (sinus_model_function_inv ⟨0, 1, 0⟩ 0 20 (sinus_model_function ⟨0, 1, 0⟩ 10) = .ok 10 ∧
      linear_model_function_inv ⟨0, 2⟩ 0 20 (linear_model_function ⟨0, 2⟩ 3) = .ok 3) := by
  have ht1 : -(Real.pi / 2) ≤ 4 * Real.pi / 180 * ((10:ℝ) + 0) := by
    nlinarith [Real.pi_pos]
  have ht2 : 4 * Real.pi / 180 * ((10:ℝ) + 0) ≤ Real.pi / 2 := by
    nlinarith [Real.pi_pos]
  exact ⟨by norm_num, by norm_num, by norm_num, ht1, ht2, by norm_num, by norm_num,
    by norm_num,
    roundtrip_principal_c4 ⟨0, 1, 0⟩ ⟨0, 2⟩ 0 20 10 3 (by norm_num) (by norm_num)
      (by norm_num) ht1 ht2 (by norm_num) (by norm_num) (by norm_num)⟩

end Monet
